/- Verification of the document-text extraction engine of docx_to_md.py:
   a shallow embedding of its string processing, XML tree walking, extraction
   strategies, filename sanitization and per-input batch driver, together with
   theorems about the behaviours the design document describes. -/
import Mathlib

set_option maxRecDepth 8000

/-- Text is modelled as a list of characters, matching Python strings
(sequences of code points) for the ASCII data this script manipulates. -/
abbrev Str := List Char

/-- Whitespace predicate of Python `str.strip()` and `\s` (ASCII range):
space, tab, newline, carriage return, vertical tab, form feed. -/
def isPySpace (c : Char) : Bool :=
  c == ' ' || c == '\t' || c == '\n' || c == '\r' || c == '\x0b' || c == '\x0c'

/-- Removal of trailing whitespace, the right half of Python `str.strip()`. -/
def dropTrail (s : Str) : Str := (s.reverse.dropWhile isPySpace).reverse

/-- Python `str.strip()`: drop leading and trailing whitespace. -/
def pyStrip (s : Str) : Str := dropTrail (s.dropWhile isPySpace)

/-- Emission of a pending run of `k` newlines after the regex substitution
`re.sub(r'\n\x7b3,\x7d', '\n\n', text)`: a run of three or more newlines
becomes exactly two, shorter runs are kept as they are. -/
def flushNl (k : Nat) : Str := List.replicate (if 3 ≤ k then 2 else k) '\n'

/-- Scanner for the newline-collapsing substitution: `k` counts the newlines
read but not yet emitted. -/
def collapseAux : Nat → Str → Str
  | k, [] => flushNl k
  | k, c :: cs => if c = '\n' then collapseAux (k + 1) cs else flushNl k ++ c :: collapseAux 0 cs

/-- The substitution `re.sub(r'\n\x7b3,\x7d', '\n\n', text)` of lines 68 and 89:
every maximal run of three or more consecutive newlines becomes exactly two. -/
def collapseNl (s : Str) : Str := collapseAux 0 s

/-- The normalization tail shared by both extractors (lines 68-69 and 89-90):
collapse long newline runs, then strip the ends of the whole string. -/
def normalizeText (s : Str) : Str := pyStrip (collapseNl s)

/-- Python `'\n'.join(parts)`: concatenation with a single newline between
consecutive fragments. -/
def joinNl : List Str → Str
  | [] => []
  | [x] => x
  | x :: y :: rest => x ++ '\n' :: joinNl (y :: rest)

/-- The Text Normalizer on a fragment sequence (lines 67-68): drop `None`
entries (an absent fragment), keep empty strings, join with single newlines,
collapse newline runs, strip the ends. -/
def normalizeFragments (ps : List (Option Str)) : Str :=
  normalizeText (joinNl (ps.filterMap id))

/-- Python `str.lower()` restricted to ASCII, applied characterwise. -/
def toLowerL (s : Str) : Str := s.map Char.toLower

/-- Python's substring containment `pat in s`: `pat` occurs contiguously in
`s`. -/
def occursIn (pat : Str) : Str → Bool
  | [] => pat.isEmpty
  | c :: cs => pat.isPrefixOf (c :: cs) || occursIn pat cs

/-- Decision of whether a string has no run of three consecutive newlines;
this characterizes the fixed points of the newline-collapsing substitution. -/
def noTriple : Str → Bool
  | [] => true
  | [_] => true
  | [_, _] => true
  | a :: b :: c :: rest =>
    !(a == '\n' && b == '\n' && c == '\n') && noTriple (b :: c :: rest)

mutual
/-- XML element trees of `word/document.xml`: a tag (qualified name, with the
namespace in braces as ElementTree renders it), the element's text content,
and the ordered children. The forest type makes the mutual structure explicit
so traversal is plain structural recursion. -/
inductive XmlNode : Type where
  | elem (tag : Str) (text : Option Str) (children : XmlForest)
/-- Ordered sequence of sibling XML elements. -/
inductive XmlForest : Type where
  | nil
  | cons (head : XmlNode) (tail : XmlForest)
end

/-- Tag of an element. -/
def XmlNode.tag : XmlNode → Str
  | .elem t _ _ => t

/-- Text content of an element (ElementTree `.text`, may be absent). -/
def XmlNode.text : XmlNode → Option Str
  | .elem _ tx _ => tx

/-- Children of an element. -/
def XmlNode.children : XmlNode → XmlForest
  | .elem _ _ cs => cs

/-- Forest built from a list of nodes, for readable document literals. -/
def XmlForest.ofL : List XmlNode → XmlForest
  | [] => .nil
  | n :: ns => .cons n (XmlForest.ofL ns)

/-- Document-order (pre-order) listing of all nodes of a forest; this is the
order `Element.iter()` yields elements in. -/
def iterF : XmlForest → List XmlNode
  | .nil => []
  | .cons (.elem t tx cs) f => XmlNode.elem t tx cs :: (iterF cs ++ iterF f)

/-- The element itself followed by all its descendants in document order:
Python's `element.iter()`. -/
def XmlNode.iter : XmlNode → List XmlNode
  | .elem t tx cs => .elem t tx cs :: iterF cs

/-- Local name of a qualified tag: `tag.split('\x7d')[-1]`, the part after the
last closing brace (the whole tag when there is no namespace). -/
def localName (t : Str) : Str := (t.reverse.takeWhile (fun c => !(c == '\x7d'))).reverse

/-- The WordprocessingML namespace, as ElementTree prefixes it to tags. -/
def wNS : Str :=
  ("\x7bhttp://schemas.openxmlformats.org/wordprocessingml/2006/main\x7d").toList

/-- Qualified WordprocessingML tag. -/
def wTag (l : Str) : Str := wNS ++ l

/-- Inner loop of both paragraph extractors (lines 52-58 and 80-86): walk all
nodes below (and including) a paragraph, appending the text of each `t` run
(empty when absent) and a newline for each `br`, with no separator. -/
def runPieces : List XmlNode → Str
  | [] => []
  | c :: rest =>
    (if localName c.tag = ("t").toList then c.text.getD []
     else if localName c.tag = ("br").toList then ['\n'] else []) ++ runPieces rest

/-- Text of one paragraph element before trimming: concatenation of its run
texts and explicit breaks in document order. -/
def runText (p : XmlNode) : Str := runPieces (XmlNode.iter p)

/-- Table flattening of lines 62-65: every `t` descendant of the table
contributes its trimmed text as one fragment, in document order. -/
def tblCellParts (b : XmlNode) : List Str :=
  ((XmlNode.iter b).filter (fun c => decide (localName c.tag = ("t").toList))).map
    (fun c => pyStrip (c.text.getD []))

/-- Per-node fragment contribution of the python-docx walker (lines 49-66):
a paragraph contributes its trimmed text as one fragment, a table contributes
its flattened cell texts followed by one empty fragment, anything else
contributes nothing. -/
def pdBranch (b : XmlNode) : List Str :=
  if localName b.tag = ("p").toList then [pyStrip (runText b)]
  else if localName b.tag = ("tbl").toList then tblCellParts b ++ [[]]
  else []

/-- Fragment accumulation of the python-docx walker over a node listing. -/
def pdPartsAux : List XmlNode → List Str
  | [] => []
  | b :: rest => pdBranch b ++ pdPartsAux rest

/-- Fragment sequence of `read_docx_text_python_docx` (lines 47-66): the loop
`for block in d.element.body.iter()` visits the body and every descendant in
document order and applies the per-node contribution. -/
def pdParts (body : XmlNode) : List Str := pdPartsAux (XmlNode.iter body)

/-- Extracted text of the python-docx strategy (lines 67-69). The generator
filter `if p is not None` keeps every entry here because `parts` holds only
strings, so the join runs over the whole fragment sequence. -/
def pdText (body : XmlNode) : Str := normalizeText (joinNl (pdParts body))

/-- ElementTree `root.findall('.//tag')`: every descendant of the root whose
qualified tag matches exactly, in document order. -/
def findallTag (t : Str) (root : XmlNode) : List XmlNode :=
  (iterF root.children).filter (fun n => decide (n.tag = t))

/-- Fragment sequence of `read_docx_text_zipxml` (lines 78-87): one trimmed
fragment per `w:p` descendant of the root, tables contributing only through
the paragraphs inside their cells. -/
def zipParts (root : XmlNode) : List Str :=
  (findallTag (wTag (("p").toList)) root).map (fun p => pyStrip (runText p))

/-- Extracted text of the raw-XML strategy (lines 88-90). -/
def zipText (root : XmlNode) : Str := normalizeText (joinNl (zipParts root))

/-- A document package as the extraction strategies observe it: either the
container or its `word/document.xml` part is unreadable (opening or parsing
raises, with the exception message), or the part parses to a root element. -/
inductive Package : Type where
  | malformed (msg : Str)
  | parsed (root : XmlNode)

/-- Lookup of the `w:body` child of the document root, modelling how
python-docx resolves `document.element.body`; absence makes the structured
path raise. -/
def findBodyF : XmlForest → Option XmlNode
  | .nil => none
  | .cons n f => if n.tag = wTag (("body").toList) then some n else findBodyF f

/-- The structured-object strategy (lines 44-69) as a fallible function: it
raises when the package is unreadable or the document has no `w:body`, and
otherwise extracts from the body subtree. -/
def read_docx_text_python_docx : Package → Except Str Str
  | .malformed m => .error m
  | .parsed root =>
    match findBodyF root.children with
    | some body => .ok (pdText body)
    | none => .error (("no body element").toList)

/-- The raw-XML fallback strategy (lines 71-90): it raises when the package
is unreadable and otherwise extracts from the whole parsed tree. -/
def read_docx_text_zipxml : Package → Except Str Str
  | .malformed m => .error m
  | .parsed root => .ok (zipText root)

/-- Strategy selection of lines 92-99: with the optional library available the
structured path runs first and any exception from it is silently recovered by
running the raw path on the same input; without the library only the raw path
runs. -/
def read_docx_text (hasLib : Bool) (p : Package) : Except Str Str :=
  if hasLib then
    match read_docx_text_python_docx p with
    | .ok t => .ok t
    | .error _ => read_docx_text_zipxml p
  else read_docx_text_zipxml p

/-- Fence language selection of lines 26-35: case-insensitive substring match
against a fixed ordered table, first match wins, empty tag when nothing
matches. -/
def detect_language_from_name (name : Str) : Str :=
  if occursIn (("cargo.toml").toList) (toLowerL name)
      || occursIn (("rust-toolchain.toml").toList) (toLowerL name)
      || occursIn (("config.toml").toList) (toLowerL name) then ("toml").toList
  else if occursIn (("makefile").toList) (toLowerL name) then ("makefile").toList
  else if occursIn ((".gitignore").toList) (toLowerL name)
      || occursIn (("gitignore").toList) (toLowerL name) then ("gitignore").toList
  else []

/-- Removal of one case-insensitive trailing `.docx`, the substitution
`re.sub(r'\.docx$', '', basename, flags=re.IGNORECASE)` of line 39. -/
def stripDocx (s : Str) : Str :=
  if toLowerL (s.drop (s.length - 5)) = ((".docx").toList) then s.take (s.length - 5) else s

/-- The literal of the suffix pattern, lowered: `Version FormulaID`. -/
def vfLit : Str := ("version formulaid").toList

/-- Tail acceptance of the suffix pattern `.*\)?$` of line 41: after the
literal, `.` cannot cross a newline and `$` matches at the end of the string
or just before one final newline, which the substitution then keeps. Returns
the part of the string the match leaves behind. -/
def vfTail (r : Str) : Option Str :=
  if r.count '\n' = 0 then some []
  else if r.count '\n' = 1 ∧ r.getLast? = some '\n' then some ['\n']
  else none

/-- Consumption of the optional leading comma of the suffix pattern `,?`. -/
def dropComma (t : Str) : Str :=
  match t with
  | c :: r => if c = ',' then r else c :: r
  | [] => []

/-- Match of the pattern `,?\s*Version FormulaID.*\)?$` (case-insensitive) at
the head of `t`: an optional comma, then any run of whitespace, then the
literal, then the tail rule. The pattern is deterministic here because a
comma is neither whitespace nor the letter the literal starts with. Returns
the remainder the substitution keeps when the match succeeds. -/
def matchVFAt (t : Str) : Option Str :=
  if vfLit.isPrefixOf (toLowerL ((dropComma t).dropWhile isPySpace)) then
    vfTail (((dropComma t).dropWhile isPySpace).drop vfLit.length)
  else none

/-- Left-to-right scan of `re.sub` for the suffix pattern of line 41: the
leftmost position where the pattern matches has its match removed (keeping
what `$` left), and a string with no match is returned unchanged. -/
def removeVFAux : Str → Str → Str
  | acc, [] =>
    match matchVFAt [] with
    | some kept => acc.reverse ++ kept
    | none => acc.reverse
  | acc, c :: cs =>
    match matchVFAt (c :: cs) with
    | some kept => acc.reverse ++ kept
    | none => removeVFAux (c :: acc) cs

/-- The suffix-stripping substitution of line 41 applied to a whole string. -/
def removeVF (s : Str) : Str := removeVFAux [] s

/-- Case-insensitive occurrence of the `Version FormulaID` literal, the
condition under which the suffix pattern can match anywhere. -/
def containsVF (s : Str) : Bool := occursIn vfLit (toLowerL s)

/-- Name Sanitizer of lines 37-42: drop one trailing `.docx`, remove the
trailing `Version FormulaID` suffix pattern, strip surrounding whitespace. -/
def sanitize_basename (b : Str) : Str := pyStrip (removeVF (stripDocx b))

/-- Output filename of line 112: the sanitized basename with `.md` appended. -/
def outName (base : Str) : Str := sanitize_basename base ++ (".md").toList

/-- POSIX `os.path.basename`: the part after the last slash. -/
def osBasename (p : Str) : Str := (p.reverse.takeWhile (fun c => !(c == '/'))).reverse

/-- POSIX `os.path.join` for one component. -/
def osJoin (a b : Str) : Str :=
  if b.head? = some '/' then b
  else if a = [] then b
  else if a.getLast? = some '/' then a ++ b
  else a ++ '/' :: b

/-- One batch input as `main` observes it: its path, whether
`os.path.exists` holds, and the package the path designates. -/
structure InputFile where
  path : Str
  onDisk : Bool
  pkg : Package

/-- Conversion of one input (lines 101-116): read the text (exceptions
propagate), then return the output path the Markdown body is written to; the
fenced body itself is file output and is not part of the returned value, and
the language tag feeds only that body. -/
def convert_one (hasLib : Bool) (outdir : Str) (f : InputFile) : Except Str Str :=
  match read_docx_text hasLib f.pkg with
  | .error e => .error e
  | .ok _text => .ok (osJoin outdir (outName (osBasename f.path)))

/-- Per-input step of the batch loop (lines 137-148): a missing path and a
wrong extension are decided before any parsing, and any exception from the
conversion becomes an `ERROR:` report entry for this input alone. -/
def processOne (hasLib : Bool) (outdir : Str) (f : InputFile) : Str × Str :=
  if !f.onDisk then (f.path, ("MISSING").toList)
  else if !(((".docx").toList).isSuffixOf (toLowerL f.path)) then
    (f.path, ("SKIPPED (not .docx)").toList)
  else
    match convert_one hasLib outdir f with
    | .ok outp => (f.path, outp)
    | .error e => (f.path, ("ERROR: ").toList ++ e)

/-- The batch loop of `main`: one report entry per input, in order. -/
def processAll (hasLib : Bool) (outdir : Str) (inputs : List InputFile) : List (Str × Str) :=
  inputs.map (processOne hasLib outdir)

/-- A WordprocessingML paragraph holding one run with one text element. -/
def mkP (txt : String) : XmlNode :=
  .elem (wTag (("p").toList)) none (XmlForest.ofL
    [.elem (wTag (("r").toList)) none (XmlForest.ofL
      [.elem (wTag (("t").toList)) (some txt.toList) (XmlForest.ofL [])])])

/-- A one-cell table whose cell paragraph says `cell`. -/
def sampleTbl : XmlNode :=
  .elem (wTag (("tbl").toList)) none (XmlForest.ofL
    [.elem (wTag (("tr").toList)) none (XmlForest.ofL
      [.elem (wTag (("tc").toList)) none (XmlForest.ofL [mkP "cell"])])])

/-- Body with paragraph `one`, the one-cell table, then paragraph `two`. -/
def sampleBody1 : XmlNode :=
  .elem (wTag (("body").toList)) none (XmlForest.ofL [mkP "one", sampleTbl, mkP "two"])

/-- Document root wrapping `sampleBody1`. -/
def sampleRoot1 : XmlNode :=
  .elem (wTag (("document").toList)) none (XmlForest.ofL [sampleBody1])

/-- Body with a single paragraph saying `hi` and no table. -/
def sampleBody2 : XmlNode :=
  .elem (wTag (("body").toList)) none (XmlForest.ofL [mkP "hi"])

/-- Document root wrapping `sampleBody2`. -/
def sampleRoot2 : XmlNode :=
  .elem (wTag (("document").toList)) none (XmlForest.ofL [sampleBody2])

/-- Body whose only paragraph carries the non-empty text of a single space. -/
def wsBody : XmlNode :=
  .elem (wTag (("body").toList)) none (XmlForest.ofL [mkP " "])

/-- Document root wrapping `wsBody`. -/
def wsRoot : XmlNode :=
  .elem (wTag (("document").toList)) none (XmlForest.ofL [wsBody])

/-- A parsed document whose root has no `w:body` child, so the structured
strategy raises while the raw strategy succeeds. -/
def noBodyPkg : Package :=
  .parsed (.elem (wTag (("document").toList)) none (XmlForest.ofL []))

/-- Input file for the fallback scenario: a `.docx` path holding the package
without a body. -/
def fallbackFile : InputFile := ⟨("x.docx").toList, true, noBodyPkg⟩

/-- Batch scenario: a convertible input. -/
def okFile1 : InputFile := ⟨("a.docx").toList, true, .parsed sampleRoot2⟩

/-- Batch scenario: a malformed package between two good inputs. -/
def badFile2 : InputFile := ⟨("b.docx").toList, true, .malformed (("bad zip").toList)⟩

/-- Batch scenario: a second convertible input. -/
def okFile3 : InputFile := ⟨("c.docx").toList, true, .parsed sampleRoot2⟩

/-- Batch scenario: a path that does not exist; its package is malformed but
is never looked at. -/
def missFile4 : InputFile := ⟨("gone.docx").toList, false, .malformed (("bad zip").toList)⟩

/-- Batch scenario: a path with the wrong extension; its package is malformed
but is never looked at. -/
def skipFile5 : InputFile := ⟨("notes.txt").toList, true, .malformed (("bad zip").toList)⟩

theorem noTriple_cons_of (x : Char) (xs : Str) (h : noTriple (x :: xs) = true) :
    noTriple xs = true := by
  cases xs with
  | nil => rfl
  | cons b t =>
    cases t with
    | nil => rfl
    | cons c r =>
      simp [noTriple] at h ⊢
      exact h.2

theorem noTriple_append_right (l t : Str) (h : noTriple (l ++ t) = true) :
    noTriple t = true := by
  induction l with
  | nil => exact h
  | cons a l ih => exact ih (noTriple_cons_of a _ (by simpa using h))

theorem noTriple_append_left (l t : Str) (h : noTriple (l ++ t) = true) :
    noTriple l = true := by
  induction l with
  | nil => rfl
  | cons a l ih =>
    cases l with
    | nil => rfl
    | cons b l2 =>
      cases l2 with
      | nil => rfl
      | cons c r =>
        simp [noTriple] at h ⊢
        refine ⟨h.1, ?_⟩
        have := ih (by simpa using h.2)
        simpa [noTriple] using this

theorem noTriple_replicate_le (k : Nat) (h : noTriple (List.replicate k '\n') = true) :
    k ≤ 2 := by
  by_contra hk
  obtain ⟨m, rfl⟩ : ∃ m, k = m + 3 := ⟨k - 3, by omega⟩
  simp [List.replicate_succ, noTriple] at h

theorem flushNl_of_le (k : Nat) (h : k ≤ 2) : flushNl k = List.replicate k '\n' := by
  unfold flushNl
  rw [if_neg (by omega)]

theorem replicate_nl_snoc (k : Nat) (l : Str) :
    List.replicate k '\n' ++ '\n' :: l = List.replicate (k + 1) '\n' ++ l := by
  induction k with
  | zero => rfl
  | succ n ih => simpa [List.replicate_succ] using ih

theorem collapseAux_of_noTriple (s : Str) :
    ∀ k, noTriple (List.replicate k '\n' ++ s) = true →
      collapseAux k s = List.replicate k '\n' ++ s := by
  induction s with
  | nil =>
    intro k h
    have hk := noTriple_replicate_le k (by simpa using h)
    simp [collapseAux, flushNl_of_le k hk]
  | cons c cs ih =>
    intro k h
    by_cases hc : c = '\n'
    · subst hc
      rw [replicate_nl_snoc] at h
      have he : collapseAux k ('\n' :: cs) = collapseAux (k + 1) cs := by
        simp [collapseAux]
      rw [he, ih (k + 1) h, replicate_nl_snoc]
    · have hk := noTriple_replicate_le k (noTriple_append_left _ _ h)
      have hcs : noTriple cs = true :=
        noTriple_cons_of c cs (noTriple_append_right _ _ h)
      simp only [collapseAux, if_neg hc]
      rw [flushNl_of_le k hk, ih 0 (by simpa using hcs)]
      simp

theorem noTriple_cons_of_ne (c : Char) (t : Str) (hc : c ≠ '\n') (h : noTriple t = true) :
    noTriple (c :: t) = true := by
  cases t with
  | nil => rfl
  | cons x r =>
    cases r with
    | nil => rfl
    | cons y r2 =>
      simp [noTriple] at h ⊢
      exact ⟨Or.inl (Or.inl hc), h⟩

theorem noTriple_nl_cons (c : Char) (t : Str) (hc : c ≠ '\n') (h : noTriple (c :: t) = true) :
    noTriple ('\n' :: c :: t) = true := by
  cases t with
  | nil => rfl
  | cons x r =>
    simp [noTriple] at h ⊢
    exact ⟨Or.inl hc, h⟩

theorem noTriple_nl_nl_cons (c : Char) (t : Str) (hc : c ≠ '\n')
    (h : noTriple ('\n' :: c :: t) = true) : noTriple ('\n' :: '\n' :: c :: t) = true := by
  simp [noTriple] at h ⊢
  exact ⟨hc, h⟩

theorem noTriple_flush_glue (k : Nat) (c : Char) (t : Str) (hc : c ≠ '\n')
    (h : noTriple t = true) : noTriple (flushNl k ++ c :: t) = true := by
  have h1 := noTriple_cons_of_ne c t hc h
  by_cases h3 : 3 ≤ k
  · unfold flushNl
    rw [if_pos h3]
    exact noTriple_nl_nl_cons _ _ hc (noTriple_nl_cons _ _ hc h1)
  · have hk : k = 0 ∨ k = 1 ∨ k = 2 := by omega
    rcases hk with rfl | rfl | rfl
    · simpa [flushNl] using h1
    · simpa [flushNl] using noTriple_nl_cons _ _ hc h1
    · simpa [flushNl] using noTriple_nl_nl_cons _ _ hc (noTriple_nl_cons _ _ hc h1)

theorem noTriple_collapseAux (s : Str) : ∀ k, noTriple (collapseAux k s) = true := by
  induction s with
  | nil =>
    intro k
    by_cases h3 : 3 ≤ k
    · simp [collapseAux, flushNl, if_pos h3]
      decide
    · have hk : k = 0 ∨ k = 1 ∨ k = 2 := by omega
      rcases hk with rfl | rfl | rfl <;> decide
  | cons c cs ih =>
    intro k
    by_cases hc : c = '\n'
    · subst hc
      simp only [collapseAux, if_pos rfl]
      exact ih (k + 1)
    · simp only [collapseAux, if_neg hc]
      exact noTriple_flush_glue k c _ hc (ih 0)

theorem collapseNl_of_noTriple (s : Str) (h : noTriple s = true) : collapseNl s = s := by
  have := collapseAux_of_noTriple s 0 (by simpa using h)
  simpa using this

theorem dropWhile_suffix_ex (p : Char → Bool) (l : Str) : ∃ u, l = u ++ l.dropWhile p := by
  induction l with
  | nil => exact ⟨[], rfl⟩
  | cons c cs ih =>
    by_cases hc : p c = true
    · obtain ⟨u, hu⟩ := ih
      refine ⟨c :: u, ?_⟩
      rw [List.dropWhile_cons, if_pos hc]
      simpa using hu
    · refine ⟨[], ?_⟩
      rw [List.dropWhile_cons, if_neg hc]
      rfl

theorem noTriple_dropWhile (p : Char → Bool) (l : Str) (h : noTriple l = true) :
    noTriple (l.dropWhile p) = true := by
  obtain ⟨u, hu⟩ := dropWhile_suffix_ex p l
  exact noTriple_append_right u _ (hu ▸ h)

theorem dropTrail_prefix_ex (l : Str) : ∃ u, l = dropTrail l ++ u := by
  obtain ⟨u, hu⟩ := dropWhile_suffix_ex isPySpace l.reverse
  refine ⟨u.reverse, ?_⟩
  conv_lhs => rw [← l.reverse_reverse, hu]
  simp [dropTrail]

theorem noTriple_dropTrail (l : Str) (h : noTriple l = true) :
    noTriple (dropTrail l) = true := by
  obtain ⟨u, hu⟩ := dropTrail_prefix_ex l
  exact noTriple_append_left _ u (hu ▸ h)

theorem noTriple_pyStrip (l : Str) (h : noTriple l = true) : noTriple (pyStrip l) = true :=
  noTriple_dropTrail _ (noTriple_dropWhile _ _ h)

theorem dropWhile_head_false (p : Char → Bool) (l : Str) (c : Char)
    (hc : (l.dropWhile p).head? = some c) : p c = false := by
  induction l with
  | nil => simp [List.dropWhile] at hc
  | cons a as ih =>
    by_cases ha : p a = true
    · rw [List.dropWhile_cons, if_pos ha] at hc
      exact ih hc
    · rw [List.dropWhile_cons, if_neg ha] at hc
      simp at hc
      rw [← hc]
      simpa using ha

theorem dropWhile_of_head (p : Char → Bool) (l : Str)
    (h : ∀ c, l.head? = some c → p c = false) : l.dropWhile p = l := by
  cases l with
  | nil => rfl
  | cons a as =>
    rw [List.dropWhile_cons, if_neg]
    simp [h a rfl]

theorem dropWhile_dropWhile (p : Char → Bool) (l : Str) :
    (l.dropWhile p).dropWhile p = l.dropWhile p :=
  dropWhile_of_head p _ (fun c hc => dropWhile_head_false p l c hc)

theorem dropTrail_dropTrail (l : Str) : dropTrail (dropTrail l) = dropTrail l := by
  simp [dropTrail, dropWhile_dropWhile]

theorem head_of_dropTrail (v : Str) (c : Char) (hc : (dropTrail v).head? = some c) :
    v.head? = some c := by
  obtain ⟨u, hu⟩ := dropTrail_prefix_ex v
  rw [hu]
  cases hdt : dropTrail v with
  | nil => rw [hdt] at hc; simp at hc
  | cons x xs =>
    rw [hdt] at hc
    simp at hc
    simp [hc]

theorem pyStrip_pyStrip (l : Str) : pyStrip (pyStrip l) = pyStrip l := by
  unfold pyStrip
  have hd : (dropTrail (l.dropWhile isPySpace)).dropWhile isPySpace
      = dropTrail (l.dropWhile isPySpace) := by
    apply dropWhile_of_head
    intro c hc
    exact dropWhile_head_false isPySpace l c (head_of_dropTrail _ c hc)
  rw [hd, dropTrail_dropTrail]

/-- Claim C3: the Text Normalizer is idempotent — applying the normalization
step (collapse every run of three or more consecutive newlines to exactly
two, then trim leading and trailing whitespace) to an already-normalized
string returns it unchanged. -/
theorem c3_normalize_idempotent (s : Str) :
    normalizeText (normalizeText s) = normalizeText s := by
  unfold normalizeText
  have h1 : noTriple (collapseNl s) = true := noTriple_collapseAux s 0
  have h2 : noTriple (pyStrip (collapseNl s)) = true := noTriple_pyStrip _ h1
  rw [collapseNl_of_noTriple _ h2, pyStrip_pyStrip]

theorem filterMap_id_map_some (ps : List Str) : (ps.map some).filterMap id = ps := by
  induction ps with
  | nil => rfl
  | cons x xs ih => simp [List.filterMap_cons, ih]

/-- Claim C4: the Text Normalizer filters out only `None` entries — empty
strings are kept as deliberate blank-line signals — joins the remainder with
single newlines, collapses runs of three or more newlines to exactly two and
trims the whole result; the fragment list `["a", "", "", "", "b"]` normalizes
to `"a\n\nb"`, an all-string fragment list loses nothing to the filter, and a
`None` entry disappears without leaving a blank line. -/
theorem c4_normalizer_fragments :
    normalizeFragments [some (("a").toList), some [], some [], some [], some (("b").toList)]
        = ("a\n\nb").toList ∧
    (∀ ps : List Str, normalizeFragments (ps.map some) = normalizeText (joinNl ps)) ∧
    normalizeFragments [some (("a").toList), none, some (("b").toList)] = ("a\nb").toList ∧
    normalizeFragments [some (("a").toList), some [], some (("b").toList)]
        = ("a\n\nb").toList := by
  refine ⟨by decide, ?_, by decide, by decide⟩
  intro ps
  unfold normalizeFragments
  rw [filterMap_id_map_some]

/-- Claim C1: evaluation of both walkers on a body holding paragraph `one`,
then a one-cell table saying `cell`, then paragraph `two`. The claimed
fragment sequence is `[one, cell, "", two]`; the structured walker instead
emits the table cell twice, because `body.iter()` re-visits the cell
paragraph as an independent paragraph after the table branch consumed it,
and the raw-XML walker emits no empty fragment after the table at all. -/
theorem c1_walker_eval :
    pdParts sampleBody1
        = [("one").toList, ("cell").toList, [], ("cell").toList, ("two").toList] ∧
    zipParts sampleRoot1 = [("one").toList, ("cell").toList, ("two").toList] ∧
    pdParts sampleBody1 ≠ [("one").toList, ("cell").toList, [], ("two").toList] ∧
    zipParts sampleRoot1 ≠ [("one").toList, ("cell").toList, [], ("two").toList] :=
  ⟨by decide, by decide, by decide, by decide⟩

/-- Claim C2 counterexample: on the parsed package holding a table, the
structured-object path and the raw-XML path succeed with different strings,
so which strategy runs is observable in the output. -/
theorem c2_paths_differ :
    read_docx_text_python_docx (Package.parsed sampleRoot1) = .ok (pdText sampleBody1) ∧
    read_docx_text_zipxml (Package.parsed sampleRoot1) = .ok (zipText sampleRoot1) ∧
    pdText sampleBody1 = ("one\ncell\n\ncell\ntwo").toList ∧
    zipText sampleRoot1 = ("one\ncell\ntwo").toList ∧
    pdText sampleBody1 ≠ zipText sampleRoot1 :=
  ⟨rfl, rfl, by decide, by decide, by decide⟩

theorem iterF_cons (n : XmlNode) (f : XmlForest) :
    iterF (XmlForest.cons n f) = XmlNode.iter n ++ iterF f := by
  cases n
  rfl

theorem pdPartsAux_eq_map (l : List XmlNode)
    (h : ∀ n ∈ l, (localName n.tag = ("p").toList → n.tag = wTag (("p").toList))
        ∧ localName n.tag ≠ ("tbl").toList) :
    pdPartsAux l = (l.filter (fun n => decide (n.tag = wTag (("p").toList)))).map
        (fun q => pyStrip (runText q)) := by
  induction l with
  | nil => rfl
  | cons b rest ih =>
    have hb := h b (List.mem_cons_self b rest)
    have hrest := fun n hn => h n (List.mem_cons_of_mem b hn)
    by_cases hp : localName b.tag = ("p").toList
    · have hbp := hb.1 hp
      simp only [pdPartsAux, pdBranch, List.filter_cons]
      rw [if_pos hp, ih hrest]
      simp only [decide_eq_true_eq]
      rw [if_pos hbp]
      simp
    · have hbn : ¬ b.tag = wTag (("p").toList) := by
        intro he
        apply hp
        rw [he]
        decide
      simp only [pdPartsAux, pdBranch, List.filter_cons]
      rw [if_neg hp, if_neg hb.2, ih hrest]
      simp only [decide_eq_true_eq]
      rw [if_neg hbn]
      simp

/-- Claim C2 amended: the two extraction strategies return the same string on
every package whose document root has exactly the body as child, in which
every element with local name `p` carries the WordprocessingML namespace, and
whose body subtree contains no element with local name `tbl`; on documents
with tables (or foreign-namespace paragraphs) the strategies may differ, as
the counterexample shows. -/
theorem c2_no_table_agreement (root body : XmlNode)
    (hroot : root.children = XmlForest.cons body XmlForest.nil)
    (hbody : body.tag = wTag (("body").toList))
    (hp : ∀ n ∈ XmlNode.iter body,
      localName n.tag = ("p").toList → n.tag = wTag (("p").toList))
    (ht : ∀ n ∈ XmlNode.iter body, localName n.tag ≠ ("tbl").toList) :
    read_docx_text_python_docx (Package.parsed root)
      = read_docx_text_zipxml (Package.parsed root) := by
  have hfind : findBodyF root.children = some body := by
    rw [hroot]
    simp [findBodyF, hbody]
  have hiter : iterF root.children = XmlNode.iter body := by
    rw [hroot, iterF_cons]
    simp [iterF]
  have h1 : read_docx_text_python_docx (Package.parsed root) = .ok (pdText body) := by
    simp [read_docx_text_python_docx, hfind]
  have h2 : read_docx_text_zipxml (Package.parsed root) = .ok (zipText root) := rfl
  rw [h1, h2]
  congr 1
  unfold pdText zipText zipParts findallTag pdParts
  rw [hiter, pdPartsAux_eq_map _ (fun n hn => ⟨hp n hn, ht n hn⟩)]

/-- Claim C2 witness: on a concrete table-free one-paragraph document the two
strategies agree. -/
theorem c2_no_table_agreement_witness :
    read_docx_text_python_docx (Package.parsed sampleRoot2)
      = read_docx_text_zipxml (Package.parsed sampleRoot2) :=
  c2_no_table_agreement sampleRoot2 sampleBody2 rfl rfl (by decide) (by decide)

/-- Claim C5: whenever the structured-object path raises on an input,
`read_docx_text` invokes the raw-XML path on the same input; if the raw path
succeeds its result is returned and the per-input driver reports the output
path as a success with no error recorded, and an `ERROR:` entry arises only
when the raw path fails too. -/
theorem c5_silent_fallback (p : Package) (e : Str)
    (hpd : read_docx_text_python_docx p = .error e) :
    read_docx_text true p = read_docx_text_zipxml p ∧
    (∀ t, read_docx_text_zipxml p = .ok t → read_docx_text true p = .ok t) ∧
    (∀ (outdir : Str) (f : InputFile), f.pkg = p → f.onDisk = true →
      ((".docx").toList).isSuffixOf (toLowerL f.path) = true →
      (∀ t, read_docx_text_zipxml p = .ok t →
        processOne true outdir f = (f.path, osJoin outdir (outName (osBasename f.path)))) ∧
      (∀ e2, read_docx_text_zipxml p = .error e2 →
        processOne true outdir f = (f.path, ("ERROR: ").toList ++ e2))) := by
  have h0 : read_docx_text true p = read_docx_text_zipxml p := by
    simp [read_docx_text, hpd]
  refine ⟨h0, fun t ht => by rw [h0, ht], ?_⟩
  intro outdir f hf hd hext
  have hnot : (!(((".docx").toList).isSuffixOf (toLowerL f.path))) = false := by
    rw [hext]
    rfl
  constructor
  · intro t ht
    have hco : convert_one true outdir f
        = .ok (osJoin outdir (outName (osBasename f.path))) := by
      simp [convert_one, hf, h0, ht]
    simp [processOne, hd, hnot, hco]
    intro habs
    simp [habs] at hext
  · intro e2 he2
    have hco : convert_one true outdir f = .error e2 := by
      simp [convert_one, hf, h0, he2]
    simp [processOne, hd, hnot, hco]
    exact List.isSuffixOf_iff_suffix.mp hext

/-- Claim C5 witness: a parsed package whose root lacks a `w:body` makes the
structured path raise; the raw path succeeds on it, and the driver reports
the output path. -/
theorem c5_silent_fallback_witness :
    read_docx_text true noBodyPkg = read_docx_text_zipxml noBodyPkg ∧
    processOne true (("out").toList) fallbackFile
      = (fallbackFile.path, osJoin (("out").toList) (outName (osBasename fallbackFile.path))) := by
  have h := c5_silent_fallback noBodyPkg (("no body element").toList) rfl
  exact ⟨h.1, (h.2.2 (("out").toList) fallbackFile rfl rfl (by decide)).1 [] rfl⟩

/-- Claim C7: every batch input yields exactly one report entry, each entry
depends only on its own input (so an error on one input never prevents the
processing of the others), and in a concrete five-input batch the malformed
second package yields an `ERROR:` entry while its neighbours still convert,
a missing path yields `MISSING` and a wrong extension yields `SKIPPED (not
.docx)` without the packages behind them ever being parsed. -/
theorem c7_batch_isolation (hasLib : Bool) (outdir : Str) (inputs : List InputFile) (i : Nat) :
    (processAll hasLib outdir inputs).length = inputs.length ∧
    (processAll hasLib outdir inputs)[i]? = (inputs[i]?).map (processOne hasLib outdir) ∧
    processAll true (("out").toList) [okFile1, badFile2, okFile3, missFile4, skipFile5] =
      [ (("a.docx").toList, ("out/a.md").toList),
        (("b.docx").toList, ("ERROR: bad zip").toList),
        (("c.docx").toList, ("out/c.md").toList),
        (("gone.docx").toList, ("MISSING").toList),
        (("notes.txt").toList, ("SKIPPED (not .docx)").toList) ] := by
  refine ⟨by simp [processAll], ?_, by decide⟩
  simp [processAll, List.getElem?_map]

theorem mem_dropWhile_of (p : Char → Bool) (l : Str) (c : Char) (hc : c ∈ l)
    (hp : p c = false) : c ∈ l.dropWhile p := by
  induction l with
  | nil => cases hc
  | cons a as ih =>
    by_cases ha : p a = true
    · rw [List.dropWhile_cons, if_pos ha]
      rcases List.mem_cons.mp hc with rfl | hmem
      · rw [ha] at hp; cases hp
      · exact ih hmem
    · rw [List.dropWhile_cons, if_neg ha]
      exact hc

theorem mem_pyStrip_of (l : Str) (c : Char) (hc : c ∈ l) (hp : isPySpace c = false) :
    c ∈ pyStrip l := by
  unfold pyStrip dropTrail
  have h1 : c ∈ l.dropWhile isPySpace := mem_dropWhile_of _ _ _ hc hp
  have h2 : c ∈ (l.dropWhile isPySpace).reverse := List.mem_reverse.mpr h1
  exact List.mem_reverse.mpr (mem_dropWhile_of _ _ _ h2 hp)

theorem mem_joinNl_of (parts : List Str) (frag : Str) (c : Char) (hf : frag ∈ parts)
    (hc : c ∈ frag) : c ∈ joinNl parts := by
  induction parts with
  | nil => cases hf
  | cons x rest ih =>
    cases rest with
    | nil =>
      rw [List.mem_singleton.mp hf] at hc
      exact hc
    | cons y rs =>
      show c ∈ x ++ '\n' :: joinNl (y :: rs)
      rcases List.mem_cons.mp hf with rfl | hmem
      · exact List.mem_append.mpr (Or.inl hc)
      · exact List.mem_append.mpr (Or.inr (List.mem_cons_of_mem _ (ih hmem)))

theorem mem_collapseAux_of (s : Str) (c : Char) (hc : c ≠ '\n') :
    ∀ k, c ∈ s → c ∈ collapseAux k s := by
  induction s with
  | nil =>
    intro k h
    cases h
  | cons a as ih =>
    intro k h
    by_cases ha : a = '\n'
    · subst ha
      have hm : c ∈ as := by
        rcases List.mem_cons.mp h with rfl | hm
        · exact absurd rfl hc
        · exact hm
      have he : collapseAux k ('\n' :: as) = collapseAux (k + 1) as := by
        simp [collapseAux]
      rw [he]
      exact ih (k + 1) hm
    · have he : collapseAux k (a :: as) = flushNl k ++ a :: collapseAux 0 as := by
        simp [collapseAux, ha]
      rw [he]
      rcases List.mem_cons.mp h with rfl | hm
      · exact List.mem_append.mpr (Or.inr (List.mem_cons_self _ _))
      · exact List.mem_append.mpr (Or.inr (List.mem_cons_of_mem _ (ih 0 hm)))

theorem normalizeText_ne_nil (parts : List Str) (frag : Str) (c : Char)
    (hf : frag ∈ parts) (hc : c ∈ frag) (hp : isPySpace c = false) :
    normalizeText (joinNl parts) ≠ [] := by
  have hnl : c ≠ '\n' := by
    intro he
    rw [he] at hp
    cases hp
  have h1 := mem_joinNl_of parts frag c hf hc
  have h2 := mem_collapseAux_of _ c hnl 0 h1
  exact List.ne_nil_of_mem (mem_pyStrip_of _ c h2 hp)

theorem mem_pdPartsAux_of (l : List XmlNode) (n : XmlNode) (x : Str)
    (hn : n ∈ l) (hx : x ∈ pdBranch n) : x ∈ pdPartsAux l := by
  induction l with
  | nil => cases hn
  | cons b rest ih =>
    show x ∈ pdBranch b ++ pdPartsAux rest
    rcases List.mem_cons.mp hn with rfl | hm
    · exact List.mem_append.mpr (Or.inl hx)
    · exact List.mem_append.mpr (Or.inr (ih hm))

/-- Claim C8 counterexample: a valid package whose only paragraph has the
non-empty text of a single space — the cell text is non-empty, yet both
extraction strategies return the empty string, because fragments are trimmed
before they are joined. -/
theorem c8_whitespace_counterexample :
    (∃ n ∈ XmlNode.iter wsBody, localName n.tag = ("p").toList ∧ runText n ≠ []) ∧
    pdText wsBody = [] ∧ zipText wsRoot = [] ∧
    read_docx_text_python_docx (Package.parsed wsRoot) = .ok [] ∧
    read_docx_text_zipxml (Package.parsed wsRoot) = .ok [] :=
  ⟨by decide, by decide, by decide, rfl, rfl⟩

/-- Claim C8 amended: for every document containing at least one paragraph
(or, on the structured path, table cell) whose text has a non-whitespace
character, both extraction strategies return a non-empty string;
whitespace-only text does not count, as the counterexample shows. -/
theorem c8_nonspace_nonempty (body root : XmlNode)
    (hpd : ∃ n ∈ XmlNode.iter body,
      (localName n.tag = ("p").toList ∧ ∃ c ∈ runText n, isPySpace c = false) ∨
      (localName n.tag = ("tbl").toList ∧
        ∃ m ∈ XmlNode.iter n, localName m.tag = ("t").toList ∧
          ∃ c ∈ m.text.getD [], isPySpace c = false))
    (hzip : ∃ q ∈ findallTag (wTag (("p").toList)) root,
      ∃ c ∈ runText q, isPySpace c = false) :
    pdText body ≠ [] ∧ zipText root ≠ [] := by
  constructor
  · obtain ⟨n, hn, hcase⟩ := hpd
    rcases hcase with ⟨hp, c, hc, hsp⟩ | ⟨htbl, m, hm, hmt, c, hc, hsp⟩
    · have hfrag : pyStrip (runText n) ∈ pdParts body := by
        apply mem_pdPartsAux_of _ n _ hn
        rw [pdBranch, if_pos hp]
        exact List.mem_singleton.mpr rfl
      exact normalizeText_ne_nil (pdParts body) _ c hfrag (mem_pyStrip_of _ c hc hsp) hsp
    · have hptbl : localName n.tag ≠ ("p").toList := by
        rw [htbl]
        decide
      have hmem : pyStrip (m.text.getD []) ∈ pdBranch n := by
        rw [pdBranch, if_neg hptbl, if_pos htbl]
        apply List.mem_append.mpr
        apply Or.inl
        apply List.mem_map.mpr
        refine ⟨m, List.mem_filter.mpr ⟨hm, by simp [hmt]⟩, rfl⟩
      have hfrag := mem_pdPartsAux_of _ n _ hn hmem
      exact normalizeText_ne_nil (pdParts body) _ c hfrag (mem_pyStrip_of _ c hc hsp) hsp
  · obtain ⟨q, hq, c, hc, hsp⟩ := hzip
    have hfrag : pyStrip (runText q) ∈ zipParts root := List.mem_map.mpr ⟨q, hq, rfl⟩
    exact normalizeText_ne_nil (zipParts root) _ c hfrag (mem_pyStrip_of _ c hc hsp) hsp

/-- Claim C8 witness: on the one-paragraph document saying `hi`, both
strategies extract a non-empty string. -/
theorem c8_nonspace_nonempty_witness : pdText sampleBody2 ≠ [] ∧ zipText sampleRoot2 ≠ [] :=
  c8_nonspace_nonempty sampleBody2 sampleRoot2 (by decide) (by decide)

/-- Claim C9: the fence language tag is chosen by case-insensitive substring
match against the fixed ordered table, first match wins: the toml row, then
`makefile`, then the gitignore row, and otherwise the empty tag; in
particular `Cargo.toml.docx` yields `toml` and `notes.docx` yields no tag. -/
theorem c9_fence_language (name : Str) :
    ((occursIn (("cargo.toml").toList) (toLowerL name)
        || occursIn (("rust-toolchain.toml").toList) (toLowerL name)
        || occursIn (("config.toml").toList) (toLowerL name)) = true →
      detect_language_from_name name = ("toml").toList) ∧
    ((occursIn (("cargo.toml").toList) (toLowerL name)
        || occursIn (("rust-toolchain.toml").toList) (toLowerL name)
        || occursIn (("config.toml").toList) (toLowerL name)) = false →
      occursIn (("makefile").toList) (toLowerL name) = true →
      detect_language_from_name name = ("makefile").toList) ∧
    ((occursIn (("cargo.toml").toList) (toLowerL name)
        || occursIn (("rust-toolchain.toml").toList) (toLowerL name)
        || occursIn (("config.toml").toList) (toLowerL name)) = false →
      occursIn (("makefile").toList) (toLowerL name) = false →
      (occursIn ((".gitignore").toList) (toLowerL name)
        || occursIn (("gitignore").toList) (toLowerL name)) = true →
      detect_language_from_name name = ("gitignore").toList) ∧
    ((occursIn (("cargo.toml").toList) (toLowerL name)
        || occursIn (("rust-toolchain.toml").toList) (toLowerL name)
        || occursIn (("config.toml").toList) (toLowerL name)) = false →
      occursIn (("makefile").toList) (toLowerL name) = false →
      (occursIn ((".gitignore").toList) (toLowerL name)
        || occursIn (("gitignore").toList) (toLowerL name)) = false →
      detect_language_from_name name = []) ∧
    detect_language_from_name (("Cargo.toml.docx").toList) = ("toml").toList ∧
    detect_language_from_name (("notes.docx").toList) = [] := by
  refine ⟨?_, ?_, ?_, ?_, by decide, by decide⟩
  · intro h1
    unfold detect_language_from_name
    rw [if_pos h1]
  · intro h1 h2
    unfold detect_language_from_name
    rw [if_neg (by rw [h1]; decide), if_pos h2]
  · intro h1 h2 h3
    unfold detect_language_from_name
    rw [if_neg (by rw [h1]; decide), if_neg (by rw [h2]; decide), if_pos h3]
  · intro h1 h2 h3
    unfold detect_language_from_name
    rw [if_neg (by rw [h1]; decide), if_neg (by rw [h2]; decide), if_neg (by rw [h3]; decide)]

/-- Claim C9 witness: one concrete filename per row of the table, each
resolved through the ordered-match property. -/
theorem c9_fence_language_witness :
    detect_language_from_name (("Cargo.toml.docx").toList) = ("toml").toList ∧
    detect_language_from_name (("src/Makefile.docx").toList) = ("makefile").toList ∧
    detect_language_from_name (("proj.gitignore.docx").toList) = ("gitignore").toList ∧
    detect_language_from_name (("notes.docx").toList) = [] :=
  ⟨(c9_fence_language (("Cargo.toml.docx").toList)).1 (by decide),
   (c9_fence_language (("src/Makefile.docx").toList)).2.1 (by decide) (by decide),
   (c9_fence_language (("proj.gitignore.docx").toList)).2.2.1 (by decide) (by decide) (by decide),
   (c9_fence_language (("notes.docx").toList)).2.2.2.1 (by decide) (by decide) (by decide)⟩

theorem occursIn_nil_pat (l : Str) : occursIn [] l = true := by
  cases l with
  | nil => rfl
  | cons c cs => rfl

theorem occursIn_of_isPrefixOf (pat u : Str) (h : pat.isPrefixOf u = true) :
    occursIn pat u = true := by
  cases u with
  | nil =>
    cases pat with
    | nil => rfl
    | cons a as => simp [List.isPrefixOf] at h
  | cons c cs =>
    unfold occursIn
    rw [h]
    rfl

theorem occursIn_tail_false (pat : Str) (c : Char) (cs : Str)
    (h : occursIn pat (c :: cs) = false) : occursIn pat cs = false := by
  unfold occursIn at h
  exact (Bool.or_eq_false_iff.mp h).2

theorem occursIn_cons_of (pat : Str) (c : Char) (cs : Str) (h : occursIn pat cs = true) :
    occursIn pat (c :: cs) = true := by
  unfold occursIn
  rw [h]
  simp

theorem occursIn_dropWhile_true (pat : Str) (q : Char → Bool) (l : Str)
    (h : occursIn pat (toLowerL (l.dropWhile q)) = true) :
    occursIn pat (toLowerL l) = true := by
  induction l with
  | nil => exact h
  | cons a as ih =>
    by_cases ha : q a = true
    · rw [List.dropWhile_cons, if_pos ha] at h
      exact occursIn_cons_of pat _ _ (ih h)
    · rw [List.dropWhile_cons, if_neg ha] at h
      exact h

theorem occursIn_dropComma_true (pat t : Str)
    (h : occursIn pat (toLowerL (dropComma t)) = true) :
    occursIn pat (toLowerL t) = true := by
  cases t with
  | nil => exact h
  | cons c cs =>
    simp only [dropComma] at h
    by_cases hc : c = ','
    · rw [if_pos hc] at h
      exact occursIn_cons_of _ _ _ h
    · rw [if_neg hc] at h
      exact h

theorem matchVFAt_some_occurs (t kept : Str) (h : matchVFAt t = some kept) :
    occursIn vfLit (toLowerL t) = true := by
  unfold matchVFAt at h
  by_cases hpre : vfLit.isPrefixOf (toLowerL ((dropComma t).dropWhile isPySpace)) = true
  · exact occursIn_dropComma_true _ _
      (occursIn_dropWhile_true _ _ _ (occursIn_of_isPrefixOf _ _ hpre))
  · rw [if_neg hpre] at h
    cases h

theorem removeVFAux_of_not (rest : Str) : ∀ acc, occursIn vfLit (toLowerL rest) = false →
    removeVFAux acc rest = acc.reverse ++ rest := by
  induction rest with
  | nil =>
    intro acc h
    simp [removeVFAux, show matchVFAt [] = none from rfl]
  | cons c cs ih =>
    intro acc h
    cases hm : matchVFAt (c :: cs) with
    | some kept =>
      have := matchVFAt_some_occurs _ _ hm
      rw [this] at h
      cases h
    | none =>
      show (match matchVFAt (c :: cs) with
        | some kept => acc.reverse ++ kept
        | none => removeVFAux (c :: acc) cs) = acc.reverse ++ c :: cs
      rw [hm]
      have hcs : occursIn vfLit (toLowerL cs) = false := occursIn_tail_false _ _ _ h
      rw [ih (c :: acc) hcs]
      simp

theorem removeVF_of_not (t : Str) (h : containsVF t = false) : removeVF t = t := by
  unfold removeVF
  rw [removeVFAux_of_not t [] h]
  rfl

theorem isPrefixOf_take_true (pat : Str) : ∀ (l : Str) (m : Nat),
    pat.isPrefixOf (l.take m) = true → pat.isPrefixOf l = true := by
  induction pat with
  | nil =>
    intro l m _
    cases l <;> rfl
  | cons a as ih =>
    intro l m h
    cases m with
    | zero => simp [List.isPrefixOf] at h
    | succ m' =>
      cases l with
      | nil => exact h
      | cons b bs =>
        rw [List.take_succ_cons] at h
        simp only [List.isPrefixOf, Bool.and_eq_true] at h ⊢
        exact ⟨h.1, ih _ _ h.2⟩

theorem occursIn_take_true (pat : Str) (l : Str) (m : Nat)
    (h : occursIn pat (l.take m) = true) : occursIn pat l = true := by
  induction l generalizing m with
  | nil => simpa using h
  | cons c cs ih =>
    cases m with
    | zero =>
      have hp : pat = [] := by simpa [occursIn, List.isEmpty_iff] using h
      subst hp
      exact occursIn_nil_pat _
    | succ m' =>
      rw [List.take_succ_cons] at h
      unfold occursIn at h
      rcases Bool.or_eq_true_iff.mp h with h1 | h2
      · have := isPrefixOf_take_true pat (c :: cs) (m' + 1)
          (by rw [List.take_succ_cons]; exact h1)
        exact occursIn_of_isPrefixOf _ _ this
      · exact occursIn_cons_of _ _ _ (ih m' h2)

theorem containsVF_take_false (s : Str) (m : Nat) (h : containsVF s = false) :
    containsVF (s.take m) = false := by
  unfold containsVF at h ⊢
  cases hc : occursIn vfLit (toLowerL (s.take m)) with
  | false => rfl
  | true =>
    have hmt : toLowerL (s.take m) = (toLowerL s).take m := List.map_take _ _ _
    rw [hmt] at hc
    rw [occursIn_take_true _ _ _ hc] at h
    cases h

/-- Claim C6 counterexample: the comma-or-space prefix of the suffix pattern
is optional in the code (`,?\s*`), so a basename where `Version FormulaID`
follows another word with no comma or space in between is still stripped,
while the claim says a name with no such prefixed suffix passes through
unchanged. -/
theorem c6_prefixless_counterexample :
    outName (("XVersion FormulaID.docx").toList) = ("X.md").toList ∧
    ("X.md").toList ≠ ("XVersion FormulaID.md").toList :=
  ⟨by decide, by decide⟩

/-- Claim C6 amended: the output filename is derived by removing one
case-insensitive trailing `.docx`, then removing from the leftmost match
onward a case-insensitive `Version FormulaID` occurrence optionally preceded
by a comma and/or whitespace (the removal runs through the end of the
string), then trimming surrounding whitespace and appending `.md`; a name
that does not contain `Version FormulaID` at all — in particular one merely
containing the word `Version` — passes through with only the extension
removed and its edges trimmed, and the two examples of the claim hold. -/
theorem c6_sanitize_amended (s : Str) (hvf : containsVF s = false) :
    outName (("Policy, Version FormulaID 7.2 (final).docx").toList) = ("Policy.md").toList ∧
    outName (("plain.docx").toList) = ("plain.md").toList ∧
    outName (("Budget Version 3.docx").toList) = ("Budget Version 3.md").toList ∧
    sanitize_basename s = pyStrip (stripDocx s) := by
  refine ⟨by decide, by decide, by decide, ?_⟩
  unfold sanitize_basename
  congr 1
  apply removeVF_of_not
  unfold stripDocx
  by_cases hd : toLowerL (s.drop (s.length - 5)) = ((".docx").toList)
  · rw [if_pos hd]
    exact containsVF_take_false s _ hvf
  · rw [if_neg hd]
    exact hvf

/-- Claim C6 witness: a basename without the literal passes through with only
the extension removed. -/
theorem c6_sanitize_amended_witness :
    sanitize_basename (("notes.docx").toList) = pyStrip (stripDocx (("notes.docx").toList)) :=
  (c6_sanitize_amended (("notes.docx").toList) (by decide)).2.2.2

theorem dropWhile_append_dd (a dd : Str)
    (hdd : ∀ c, dd.head? = some c → isPySpace c = false) :
    ∃ b, (a ++ dd).dropWhile isPySpace = b ++ dd := by
  induction a with
  | nil =>
    refine ⟨[], ?_⟩
    simp [dropWhile_of_head isPySpace dd hdd]
  | cons c as ih =>
    by_cases hc : isPySpace c = true
    · obtain ⟨b, hb⟩ := ih
      refine ⟨b, ?_⟩
      rw [List.cons_append, List.dropWhile_cons, if_pos hc]
      exact hb
    · refine ⟨c :: as, ?_⟩
      rw [List.cons_append, List.dropWhile_cons, if_neg hc]

theorem dropTrail_append_dd (b : Str) :
    dropTrail (b ++ ((".docx").toList)) = b ++ ((".docx").toList) := by
  have hr : (((".docx").toList : Str)).reverse = 'x' :: 'c' :: 'o' :: 'd' :: '.' :: [] := by
    decide
  unfold dropTrail
  rw [List.reverse_append, hr, List.cons_append, List.dropWhile_cons, if_neg (by decide)]
  rw [← List.cons_append, ← hr, ← List.reverse_append, List.reverse_reverse]

/-- Claim C10: for every basename that does not contain `version formulaid`
case-insensitively, `sanitize_basename` removes at most one trailing
`.docx` — a basename ending in `.docx.docx` keeps its inner `.docx`, and an
input named `report.docx.docx` is written out as `report.docx.md`. -/
theorem c10_at_most_one_ext (s : Str) (hvf : containsVF s = false)
    (hdd : ∃ a, s = a ++ ((".docx.docx").toList)) :
    (∃ b, sanitize_basename s = b ++ ((".docx").toList)) ∧
    outName (("report.docx.docx").toList) = ("report.docx.md").toList := by
  refine ⟨?_, by decide⟩
  obtain ⟨a, rfl⟩ := hdd
  have hdd2 : ((".docx.docx").toList : Str) = ((".docx").toList) ++ ((".docx").toList) := by
    decide
  rw [hdd2, ← List.append_assoc] at hvf ⊢
  have hd5len : ((((".docx").toList) : Str)).length = 5 := by decide
  have hlen : ((a ++ ((".docx").toList)) ++ ((".docx").toList)).length - 5
      = (a ++ ((".docx").toList)).length := by
    rw [List.length_append (a ++ ((".docx").toList)), hd5len]
    omega
  have hcond : toLowerL (((a ++ ((".docx").toList)) ++ ((".docx").toList)).drop
      (((a ++ ((".docx").toList)) ++ ((".docx").toList)).length - 5)) = ((".docx").toList) := by
    rw [hlen, List.drop_left]
    decide
  have hstrip : stripDocx ((a ++ ((".docx").toList)) ++ ((".docx").toList))
      = a ++ ((".docx").toList) := by
    unfold stripDocx
    rw [if_pos hcond, hlen, List.take_left]
  have hcA : containsVF (a ++ ((".docx").toList)) = false := by
    have h2 := containsVF_take_false ((a ++ ((".docx").toList)) ++ ((".docx").toList))
      (a ++ ((".docx").toList)).length hvf
    rwa [List.take_left] at h2
  unfold sanitize_basename
  rw [hstrip, removeVF_of_not _ hcA]
  obtain ⟨b, hb⟩ := dropWhile_append_dd a ((".docx").toList)
    (by intro c hc; simp at hc; rw [← hc]; decide)
  refine ⟨b, ?_⟩
  unfold pyStrip
  rw [hb, dropTrail_append_dd]

/-- Claim C10 witness: the concrete double-extension basename keeps its inner
extension. -/
theorem c10_at_most_one_ext_witness :
    (∃ b, sanitize_basename (("report.docx.docx").toList) = b ++ ((".docx").toList)) ∧
    outName (("report.docx.docx").toList) = ("report.docx.md").toList :=
  c10_at_most_one_ext (("report.docx.docx").toList) (by decide)
    ⟨("report").toList, by decide⟩
